import Mathlib

/-!
Shallow embedding of the retrieval-evaluation core of the repository
(`bench/scripts/common.py` and `bench/scripts/generate_subset.py`).

Python dicts preserve insertion order, so they are modelled as association
lists (`List (String × β)`); a dict never holds a duplicate key, and the
recursive update below (update the binding in place when the key is present,
append it otherwise) is exactly Python's `m[k] = v` on such lists.  Python's
built-in `sorted(..., reverse=True)` is a stable sort and is modelled with
`List.mergeSort` and a non-strict comparison, which has the same stability
guarantee.  Float scores are modelled as exact rationals (`ℚ`).
-/

namespace Sonar

open scoped List

/-- Python dict update `m[k] = f(m.get(k, d0))`: if the key is present the
binding is updated in place, otherwise the binding is appended, matching the
insertion-order semantics of Python dicts. -/
def dictUpd : List (String × β) → String → (β → β) → β → List (String × β)
  | [], k, f, d0 => [(k, f d0)]
  | p :: rest, k, f, d0 =>
    if p.1 = k then (p.1, f p.2) :: rest else p :: dictUpd rest k f d0

/-- Python dict lookup `m.get(k, d0)`. -/
def dictGet : List (String × β) → String → β → β
  | [], _, d0 => d0
  | p :: rest, k, d0 => if p.1 = k then p.2 else dictGet rest k d0

/-! ## Reciprocal Rank Fusion (`rrf_fusion` in `bench/scripts/common.py`)

The Python loop
`for rank, (doc_id, _) in enumerate(hits, 1): scores[doc_id] = scores.get(doc_id, 0) + 1 / (k + rank)`
is one `rrf_pass`; `rrf_fusion` runs it over both input rankings and then
sorts the accumulated dict items by score, descending (`sorted(...,
key=lambda x: x[1], reverse=True)`, a stable descending sort). -/

/-- One accumulation pass of `rrf_fusion`, with ranks starting at `j`
(Python's `enumerate(hits, 1)` corresponds to `j = 1`). -/
def rrf_passFrom (k j : ℕ) (hits : List (String × ℚ))
    (m0 : List (String × ℚ)) : List (String × ℚ) :=
  (hits.enumFrom j).foldl
    (fun m p => dictUpd m p.2.1 (fun v => v + 1 / ((k : ℚ) + p.1)) 0) m0

/-- Model of `rrf_fusion(hits1, hits2, k)` from `bench/scripts/common.py`. -/
def rrf_fusion (hits1 hits2 : List (String × ℚ)) (k : ℕ) :
    List (String × ℚ) :=
  (rrf_passFrom k 1 hits2 (rrf_passFrom k 1 hits1 [])).mergeSort
    (fun a b => decide (b.2 ≤ a.2))

/-! ## Chunk aggregation (`aggregate_chunk_scores` in `bench/scripts/common.py`)

The Python function groups chunk hits by doc id into an insertion-ordered
dict of score lists, aggregates each group by one of four policies, and
stable-sorts the resulting (doc, score) pairs by score, descending.  The
`ValueError` raised on an unknown method (and `max()` on an empty list,
which cannot happen since groups are nonempty) is modelled as `none`. -/

/-- The grouping loop: `doc_chunks[doc_id].append(score)` with dicts keyed
by first occurrence. -/
def groupChunks (chunk_hits : List (String × ℚ)) : List (String × List ℚ) :=
  chunk_hits.foldl (fun m p => dictUpd m p.1 (fun l => l ++ [p.2]) []) []

/-- One group's aggregation: the `if method == ...` chain of
`aggregate_chunk_scores`. -/
def aggregateScores (method : String) (m : ℕ) (scores : List ℚ) : Option ℚ :=
  let ss := scores.mergeSort (fun a b => decide (b ≤ a))
  if method = "max_p" then scores.max?
  else if method = "top_m_sum" then some ((ss.take m).sum)
  else if method = "top_m_avg" then
    some (if (ss.take m).isEmpty then 0 else (ss.take m).sum / ((ss.take m).length : ℚ))
  else if method = "rrf_per_doc" then
    some (((List.range scores.length).map (fun r => 1 / ((60 : ℚ) + ((r : ℚ) + 1)))).sum)
  else none

/-- The per-document aggregation loop (builds `doc_scores` in group order;
`none` models the `ValueError` escaping the loop). -/
def aggLoop (method : String) (m : ℕ) : List (String × List ℚ) → Option (List (String × ℚ))
  | [] => some []
  | g :: gs =>
    match aggregateScores method m g.2 with
    | none => none
    | some v => (aggLoop method m gs).map (fun rest => (g.1, v) :: rest)

/-- Model of `aggregate_chunk_scores(chunk_hits, method, m)` from
`bench/scripts/common.py`. -/
def aggregate_chunk_scores (chunk_hits : List (String × ℚ)) (method : String)
    (m : ℕ) : Option (List (String × ℚ)) :=
  (aggLoop method m (groupChunks chunk_hits)).map
    (fun ds => ds.mergeSort (fun a b => decide (b.2 ≤ a.2)))

/-! ## Qrels loading and subset-qrels emission (`generate_subset.py`)

`load_qrels` keeps, per query id, the set of doc ids with score > 0
(`if float(score) > 0: qrels[query_id].add(doc_id)`); rows are modelled
post-TSV-split, sets as duplicate-free lists.  The subset-qrels writer
iterates queries and docs in sorted order and writes the literal score `1`
for every retained pair that is in the candidate pool. -/

/-- Model of `load_qrels` from `bench/scripts/generate_subset.py` on rows
(query_id, doc_id, score). -/
def load_qrels (rows : List (String × String × ℚ)) :
    List (String × List String) :=
  rows.foldl
    (fun q r => if 0 < r.2.2 then
        dictUpd q r.1 (fun l => if r.2.1 ∈ l then l else l ++ [r.2.1]) []
      else q)
    []

/-- Lookup of a query's judged doc set (empty when absent, like the
`defaultdict(set)` in the source). -/
def qrelsGet (q : List (String × List String)) (qid : String) : List String :=
  dictGet q qid []

/-- The subset-qrels writing loop of `main`: for each query id (sorted) and
each judged doc id (sorted), emit `(query_id, doc_id, 1)` when the doc is in
the candidate pool. -/
def write_qrels (qrels : List (String × List String)) (pool : Finset String) :
    List (String × String × ℕ) :=
  ((qrels.map Prod.fst).mergeSort (fun a b => decide (a ≤ b))).flatMap
    (fun qid =>
      ((qrelsGet qrels qid).mergeSort (fun a b => decide (a ≤ b))).filterMap
        (fun d => if d ∈ pool then some (qid, d, 1) else none))

/-! ## Candidate pool construction (`main` in `generate_subset.py`)

For each sampled query, the loop unions the query's positive-qrel docs with
its BM25 top-M docs into the running pool.  The BM25 retrieval result is an
arbitrary function here: the invariant does not depend on it. -/

/-- The candidate-pool loop of `main`: `candidate_pool.update(relevant_docs)`
then `candidate_pool.update(bm25_doc_ids)` per sampled query. -/
def build_candidate_pool (qrels : List (String × List String))
    (bm25top : String → List String) (sampled : List String) : Finset String :=
  sampled.foldl
    (fun pool qid =>
      (pool ∪ (qrelsGet qrels qid).toFinset) ∪ (bm25top qid).toFinset)
    ∅

/-! ## Corpus loading with a budget (`load_corpus` in `generate_subset.py`)

A corpus line is modelled as `(doc_id, title, text)`.  The loop always
stores required docs; regular docs respect `max_docs` via the Python
truthiness test `if max_docs and regular_count >= max_docs` (so `None`
and `0` both disable the cap); once the cap is reached and every required
doc has been found, the scan breaks. -/

/-- Python truthiness of `max_docs` (`None` and `0` are falsy). -/
def maxDocsTruthy : Option ℕ → Bool
  | none => false
  | some m => decide (m ≠ 0)

/-- The scanning loop of `load_corpus`, carrying the corpus dict, the
`remaining_required` set and `regular_count`. -/
def load_corpus_aux (max_docs : Option ℕ) (required : Finset String) :
    List (String × String × String) → List (String × String × String) →
    Finset String → ℕ → List (String × String × String) × ℕ
  | [], corpus, _, regular => (corpus, regular)
  | doc :: rest, corpus, remaining, regular =>
    if doc.1 ∈ required then
      load_corpus_aux max_docs required rest
        (dictUpd corpus doc.1 (fun _ => doc.2) doc.2)
        (remaining.erase doc.1) regular
    else if maxDocsTruthy max_docs ∧ max_docs.getD 0 ≤ regular then
      if remaining = ∅ then (corpus, regular)
      else load_corpus_aux max_docs required rest corpus remaining regular
    else
      load_corpus_aux max_docs required rest
        (dictUpd corpus doc.1 (fun _ => doc.2) doc.2) remaining (regular + 1)

/-- Model of `load_corpus(corpus_file, max_docs, required_doc_ids)`: returns the
loaded corpus and the final `regular_count`. -/
def load_corpus (file : List (String × String × String))
    (max_docs : Option ℕ) (required : Finset String) :
    List (String × String × String) × ℕ :=
  load_corpus_aux max_docs required file [] required 0

/-! ## Query allocation across datasets (`generate_subset.py`)

Both `sample_queries` and `main` allocate `n_queries` across datasets by
`int(n * ratio / total_ratio)` for every dataset but the last, which gets
`n - allocated_total`.  Integer arithmetic is modelled exactly (Python's
`int(a / b)` on nonnegative ints is floor division; the float rounding that
could differ from exact floor only above 2^53 is not modelled). -/

/-- The allocation loop (`for i, ratio in enumerate(query_ratio): ...`). -/
def allocLoop (n total : ℕ) : List ℕ → ℕ → List ℕ
  | [], _ => []
  | [_], alloc => [n - alloc]
  | r :: rest, alloc => (n * r / total) :: allocLoop n total rest (alloc + n * r / total)

/-- Model of `queries_per_dataset` / `samples_per_dataset` from
`bench/scripts/generate_subset.py`. -/
def queries_per_dataset (n : ℕ) (ratios : List ℕ) : List ℕ :=
  allocLoop n ratios.sum ratios 0

/-! ## Tokenizer (`tokenize_simple` in `generate_subset.py`)

Python strings are modelled as lists of code points.  The segmenter branch
returns `list(set(word_tokens + tiny_tokens))` — deduplicated (the set's
iteration order is unspecified; only dedup-ness and membership are
modelled, via `List.dedup`).  The `ImportError` fallback returns
`word_tokens + char_bigrams` with NO deduplication. -/

/-- Python `str.split()`: split on whitespace runs, discarding empties;
`acc` carries the current word reversed. -/
def pySplitWs : List Char → List Char → List (List Char)
  | [], acc => if acc = [] then [] else [acc.reverse]
  | c :: rest, acc =>
    if c.isWhitespace then
      if acc = [] then pySplitWs rest []
      else acc.reverse :: pySplitWs rest []
    else pySplitWs rest (c :: acc)

/-- Python `str.lower()`. -/
def pyLower (t : List Char) : List Char := t.map Char.toLower

/-- Model of `tokenize_simple`, segmenter branch: word tokens plus the segmenter's
non-whitespace tokens, deduplicated (`list(set(...))`). -/
def tokenize_simple_seg (segmenter : List Char → List (List Char))
    (text : List Char) : List (List Char) :=
  let t := pyLower text
  let word_tokens := pySplitWs t []
  let tiny := (segmenter t).filter
    (fun s => s.filter (fun c => ¬ c.isWhitespace) ≠ [])
  (word_tokens ++ tiny).dedup

/-- Model of `tokenize_simple`, `ImportError` fallback branch: word tokens plus
overlapping character bigrams of the space-stripped text, NOT deduplicated. -/
def tokenize_simple_fallback (text : List Char) : List (List Char) :=
  let t := pyLower text
  let word_tokens := pySplitWs t []
  let tns := t.filter (fun c => c ≠ ' ')
  let bigrams := (List.range (tns.length - 1)).map (fun i => (tns.drop i).take 2)
  word_tokens ++ bigrams

/-! ## BM25 top-M truncation (`bm25_retrieve` in `generate_subset.py`)

`scores.argsort()[-top_m:][::-1]` sorts indices by ascending score and
reverses the kept tail.  numpy's argsort orders by value; the tie order of
its default sort is modelled as index-ascending (stable), which matches its
behavior on small arrays and is the reading most favorable to the spec's
claim.  The Python slice `[-m:]` with `m = 0` is the whole array. -/

/-- Ascending argsort of a score list (ties modelled index-ascending). -/
def argsortAsc (scores : List ℚ) : List ℕ :=
  (List.range scores.length).mergeSort
    (fun i j => decide (scores.getD i 0 < scores.getD j 0 ∨
      (scores.getD i 0 = scores.getD j 0 ∧ i ≤ j)))

/-- Python tail slice `arr[-m:]` (`m = 0` keeps everything). -/
def pyTailSlice (l : List ℕ) (m : ℕ) : List ℕ :=
  if m = 0 then l else l.drop (l.length - m)

/-- Model of `bm25_retrieve(query, bm25, doc_ids, top_m)`: the part after
`bm25.get_scores` — top-M selection from the score array. -/
def bm25_retrieve (scores : List ℚ) (doc_ids : List String) (top_m : ℕ) :
    List (String × ℚ) :=
  ((pyTailSlice (argsortAsc scores) top_m).reverse).map
    (fun i => (doc_ids.getD i "", scores.getD i 0))

/-! ## Theorems -/

theorem dictUpd_keys (m : List (String × β)) (k : String) (f : β → β) (d0 : β) :
    (dictUpd m k f d0).map Prod.fst =
      if k ∈ m.map Prod.fst then m.map Prod.fst else m.map Prod.fst ++ [k] := by
  induction m with
  | nil => simp [dictUpd]
  | cons p rest ih =>
    by_cases hpk : p.1 = k
    · simp [dictUpd, hpk]
    · have hne : k ≠ p.1 := fun h => hpk h.symm
      simp only [dictUpd, hpk, if_false, List.map_cons, List.mem_cons, ih]
      by_cases hk : k ∈ rest.map Prod.fst
      · simp [hk, hne]
      · simp [hk, hne]

theorem dictUpd_keys_nodup (m : List (String × β)) (k : String) (f : β → β)
    (d0 : β) (h : (m.map Prod.fst).Nodup) :
    ((dictUpd m k f d0).map Prod.fst).Nodup := by
  rw [dictUpd_keys]
  by_cases hk : k ∈ m.map Prod.fst
  · simpa [hk] using h
  · simp only [hk, if_false]
    refine List.Nodup.append h (List.nodup_singleton k) ?_
    intro a h1 h2
    simp only [List.mem_singleton] at h2
    exact hk (h2 ▸ h1)

theorem dictGet_dictUpd (m : List (String × β)) (k k' : String) (f : β → β)
    (d0 : β) :
    dictGet (dictUpd m k f d0) k' d0 =
      if k' = k then f (dictGet m k d0) else dictGet m k' d0 := by
  induction m with
  | nil =>
    by_cases hkk : k' = k
    · subst hkk; simp [dictUpd, dictGet]
    · simp [dictUpd, dictGet, hkk, show ¬ k = k' from fun h => hkk h.symm]
  | cons p rest ih =>
    by_cases hpk : p.1 = k
    · by_cases hkk : k' = k
      · simp [dictUpd, dictGet, hpk, hkk, hpk.trans hkk.symm]
      · have hpk' : ¬ p.1 = k' := fun h => hkk (h.symm.trans hpk)
        simp [dictUpd, dictGet, hpk, hkk, hpk',
          show ¬ k = k' from fun h => hkk h.symm]
    · by_cases hpk' : p.1 = k'
      · have hkk : ¬ k' = k := fun h => hpk (hpk'.trans h)
        simp [dictUpd, dictGet, hpk, hpk', hkk]
      · simp [dictUpd, dictGet, hpk, hpk', ih]

/-- If a key is present in an association list, the pair
`(k, dictGet m k d0)` is a member of the list. -/
theorem dictGet_mem (m : List (String × β)) (k : String) (d0 : β)
    (hk : k ∈ m.map Prod.fst) : (k, dictGet m k d0) ∈ m := by
  induction m with
  | nil => simp at hk
  | cons p rest ih =>
    obtain ⟨a, b⟩ := p
    by_cases hpk : a = k
    · subst hpk
      have : (a, dictGet ((a, b) :: rest) a d0) = (a, b) := by
        simp [dictGet]
      rw [this]
      exact List.mem_cons_self (a, b) rest
    · have hk' : k ∈ rest.map Prod.fst := by
        rcases List.mem_map.mp hk with ⟨q, hq, hqk⟩
        rcases List.mem_cons.mp hq with hq1 | hq1
        · exact absurd (by rw [hq1] at hqk; exact hqk) hpk
        · exact List.mem_map.mpr ⟨q, hq1, hqk⟩
      have : dictGet ((a, b) :: rest) k d0 = dictGet rest k d0 := by
        simp [dictGet, hpk]
      rw [this]
      exact List.mem_cons_of_mem (a, b) (ih hk')

theorem dictGet_of_not_mem_keys (m : List (String × β)) (k : String) (d0 : β)
    (hk : k ∉ m.map Prod.fst) : dictGet m k d0 = d0 := by
  induction m with
  | nil => rfl
  | cons p rest ih =>
    have hpk : ¬ p.1 = k := fun h => hk (by simp [← h])
    have : k ∉ rest.map Prod.fst := fun h => hk (by simp [h])
    simp [dictGet, hpk, ih this]

theorem dictUpd_mem_keys (m : List (String × β)) (k k' : String) (f : β → β)
    (d0 : β) :
    k' ∈ (dictUpd m k f d0).map Prod.fst ↔ k' ∈ m.map Prod.fst ∨ k' = k := by
  rw [dictUpd_keys]
  by_cases hk : k ∈ m.map Prod.fst
  · simp only [hk, if_true]
    constructor
    · exact fun h => Or.inl h
    · rintro (h | h)
      · exact h
      · exact h ▸ hk
  · simp [hk]

theorem rrf_passFrom_mem_keys (k j : ℕ) (hits : List (String × ℚ))
    (m0 : List (String × ℚ)) (d : String) :
    d ∈ (rrf_passFrom k j hits m0).map Prod.fst ↔
      d ∈ m0.map Prod.fst ∨ d ∈ hits.map Prod.fst := by
  induction hits generalizing j m0 with
  | nil => simp [rrf_passFrom, List.enumFrom]
  | cons p rest ih =>
    have hstep : rrf_passFrom k j (p :: rest) m0 =
        rrf_passFrom k (j + 1) rest
          (dictUpd m0 p.1 (fun v => v + 1 / ((k : ℚ) + j)) 0) := by
      simp [rrf_passFrom, List.enumFrom]
    rw [hstep, ih]
    rw [dictUpd_mem_keys]
    simp only [List.map_cons, List.mem_cons]
    tauto

theorem rrf_passFrom_keys_nodup (k j : ℕ) (hits : List (String × ℚ))
    (m0 : List (String × ℚ)) (h : (m0.map Prod.fst).Nodup) :
    ((rrf_passFrom k j hits m0).map Prod.fst).Nodup := by
  induction hits generalizing j m0 with
  | nil => simpa [rrf_passFrom, List.enumFrom] using h
  | cons p rest ih =>
    have hstep : rrf_passFrom k j (p :: rest) m0 =
        rrf_passFrom k (j + 1) rest
          (dictUpd m0 p.1 (fun v => v + 1 / ((k : ℚ) + j)) 0) := by
      simp [rrf_passFrom, List.enumFrom]
    rw [hstep]
    exact ih (j + 1) _ (dictUpd_keys_nodup m0 p.1 _ 0 h)

theorem rrf_passFrom_get_of_not_mem (k j : ℕ) (hits : List (String × ℚ))
    (m0 : List (String × ℚ)) (d : String) (hd : d ∉ hits.map Prod.fst) :
    dictGet (rrf_passFrom k j hits m0) d 0 = dictGet m0 d 0 := by
  induction hits generalizing j m0 with
  | nil => simp [rrf_passFrom, List.enumFrom]
  | cons p rest ih =>
    have hstep : rrf_passFrom k j (p :: rest) m0 =
        rrf_passFrom k (j + 1) rest
          (dictUpd m0 p.1 (fun v => v + 1 / ((k : ℚ) + j)) 0) := by
      simp [rrf_passFrom, List.enumFrom]
    have hdp : ¬ d = p.1 := fun h => hd (by simp [h])
    have hdr : d ∉ rest.map Prod.fst := fun h => hd (by simp [h])
    rw [hstep, ih (j + 1) _ hdr, dictGet_dictUpd, if_neg hdp]

theorem rrf_passFrom_get_of_getElem (k j : ℕ) (hits : List (String × ℚ))
    (m0 : List (String × ℚ)) (d : String) (s : ℚ) (i : ℕ)
    (hnd : (hits.map Prod.fst).Nodup) (hi : hits[i]? = some (d, s)) :
    dictGet (rrf_passFrom k j hits m0) d 0 =
      dictGet m0 d 0 + 1 / ((k : ℚ) + j + i) := by
  induction hits generalizing j m0 i with
  | nil => simp at hi
  | cons p rest ih =>
    have hstep : rrf_passFrom k j (p :: rest) m0 =
        rrf_passFrom k (j + 1) rest
          (dictUpd m0 p.1 (fun v => v + 1 / ((k : ℚ) + j)) 0) := by
      simp [rrf_passFrom, List.enumFrom]
    rw [hstep]
    simp only [List.map_cons, List.nodup_cons] at hnd
    cases i with
    | zero =>
      simp only [List.getElem?_cons_zero, Option.some_inj] at hi
      have hpd : p.1 = d := by rw [hi]
      have hdr : d ∉ rest.map Prod.fst := hpd ▸ hnd.1
      rw [rrf_passFrom_get_of_not_mem k (j + 1) rest _ d hdr,
        dictGet_dictUpd, if_pos hpd.symm, hpd]
      push_cast
      ring
    | succ i' =>
      simp only [List.getElem?_cons_succ] at hi
      have hdr : d ∈ rest.map Prod.fst := by
        have : (d, s) ∈ rest := List.getElem?_mem hi
        exact List.mem_map.mpr ⟨(d, s), this, rfl⟩
      have hpd : ¬ d = p.1 := fun h => hnd.1 (h ▸ hdr)
      rw [ih (j + 1) _ i' hnd.2 hi, dictGet_dictUpd, if_neg hpd]
      push_cast
      ring_nf

theorem rrf_le_trans (a b c : String × ℚ)
    (hab : decide (b.2 ≤ a.2) = true) (hbc : decide (c.2 ≤ b.2) = true) :
    decide (c.2 ≤ a.2) = true := by
  simp only [decide_eq_true_eq] at *
  exact le_trans hbc hab

theorem rrf_le_total (a b : String × ℚ) :
    (decide (b.2 ≤ a.2) || decide (a.2 ≤ b.2)) = true := by
  simpa using le_total b.2 a.2

/-- C2: in `rrf_fusion`, a doc appearing in both lists at 1-based positions
`r1 = i1 + 1` and `r2 = i2 + 1` gets fused score `1/(k+r1) + 1/(k+r2)`; a
doc in exactly one list at 1-based position `r = i + 1` gets `1/(k+r)`; the
output is sorted by fused score, descending. -/
theorem rrf_fusion_score_formula (hits1 hits2 : List (String × ℚ)) (k : ℕ)
    (h1 : (hits1.map Prod.fst).Nodup) (h2 : (hits2.map Prod.fst).Nodup) :
    (∀ (d : String) (s1 s2 : ℚ) (i1 i2 : ℕ),
        hits1[i1]? = some (d, s1) → hits2[i2]? = some (d, s2) →
        (d, 1 / ((k : ℚ) + ((i1 : ℚ) + 1)) + 1 / ((k : ℚ) + ((i2 : ℚ) + 1))) ∈
          rrf_fusion hits1 hits2 k)
    ∧ (∀ (d : String) (s1 : ℚ) (i1 : ℕ),
        hits1[i1]? = some (d, s1) → d ∉ hits2.map Prod.fst →
        (d, 1 / ((k : ℚ) + ((i1 : ℚ) + 1))) ∈ rrf_fusion hits1 hits2 k)
    ∧ (∀ (d : String) (s2 : ℚ) (i2 : ℕ),
        hits2[i2]? = some (d, s2) → d ∉ hits1.map Prod.fst →
        (d, 1 / ((k : ℚ) + ((i2 : ℚ) + 1))) ∈ rrf_fusion hits1 hits2 k)
    ∧ (rrf_fusion hits1 hits2 k).Pairwise (fun a b => b.2 ≤ a.2) := by
  have hkeys : ∀ d, d ∈ (rrf_passFrom k 1 hits2
        (rrf_passFrom k 1 hits1 [])).map Prod.fst ↔
      d ∈ hits1.map Prod.fst ∨ d ∈ hits2.map Prod.fst := by
    intro d
    rw [rrf_passFrom_mem_keys, rrf_passFrom_mem_keys]
    simp only [List.map_nil, List.not_mem_nil, false_or]
  have hmem : ∀ d, d ∈ (rrf_passFrom k 1 hits2
        (rrf_passFrom k 1 hits1 [])).map Prod.fst →
      (d, dictGet (rrf_passFrom k 1 hits2 (rrf_passFrom k 1 hits1 [])) d 0)
        ∈ rrf_fusion hits1 hits2 k := by
    intro d hd
    exact List.mem_mergeSort.mpr (dictGet_mem _ _ _ hd)
  refine ⟨?_, ?_, ?_, ?_⟩
  · intro d s1 s2 i1 i2 hi1 hi2
    have hd1 : d ∈ hits1.map Prod.fst :=
      List.mem_map.mpr ⟨(d, s1), List.getElem?_mem hi1, rfl⟩
    have hv : dictGet (rrf_passFrom k 1 hits2 (rrf_passFrom k 1 hits1 []))
        d 0 = 1 / ((k : ℚ) + ((i1 : ℚ) + 1)) + 1 / ((k : ℚ) + ((i2 : ℚ) + 1)) := by
      rw [rrf_passFrom_get_of_getElem k 1 hits2 _ d s2 i2 h2 hi2,
        rrf_passFrom_get_of_getElem k 1 hits1 [] d s1 i1 h1 hi1]
      simp only [dictGet]
      ring_nf
    have := hmem d ((hkeys d).mpr (Or.inl hd1))
    rwa [hv] at this
  · intro d s1 i1 hi1 hd2
    have hd1 : d ∈ hits1.map Prod.fst :=
      List.mem_map.mpr ⟨(d, s1), List.getElem?_mem hi1, rfl⟩
    have hv : dictGet (rrf_passFrom k 1 hits2 (rrf_passFrom k 1 hits1 []))
        d 0 = 1 / ((k : ℚ) + ((i1 : ℚ) + 1)) := by
      rw [rrf_passFrom_get_of_not_mem k 1 hits2 _ d hd2,
        rrf_passFrom_get_of_getElem k 1 hits1 [] d s1 i1 h1 hi1]
      simp only [dictGet]
      ring_nf
    have := hmem d ((hkeys d).mpr (Or.inl hd1))
    rwa [hv] at this
  · intro d s2 i2 hi2 hd1
    have hd2 : d ∈ hits2.map Prod.fst :=
      List.mem_map.mpr ⟨(d, s2), List.getElem?_mem hi2, rfl⟩
    have hv : dictGet (rrf_passFrom k 1 hits2 (rrf_passFrom k 1 hits1 []))
        d 0 = 1 / ((k : ℚ) + ((i2 : ℚ) + 1)) := by
      rw [rrf_passFrom_get_of_getElem k 1 hits2 _ d s2 i2 h2 hi2,
        rrf_passFrom_get_of_not_mem k 1 hits1 [] d hd1]
      simp only [dictGet]
      ring_nf
    have := hmem d ((hkeys d).mpr (Or.inr hd2))
    rwa [hv] at this
  · have hp := List.sorted_mergeSort rrf_le_trans rrf_le_total
      (rrf_passFrom k 1 hits2 (rrf_passFrom k 1 hits1 []))
    exact hp.imp (fun h => of_decide_eq_true h)

/-- Closed witness for C2: in fusing `[(x,5),(y,4)]` with `[(y,9)]` at
`k = 60`, doc `y` (positions 2 and 1) receives `1/62 + 1/61 = 123/3782`. -/
theorem rrf_fusion_score_formula_witness :
    ("y", (123 : ℚ) / 3782) ∈ rrf_fusion [("x", 5), ("y", 4)] [("y", 9)] 60 := by
  have h := (rrf_fusion_score_formula [("x", 5), ("y", 4)] [("y", 9)] 60
    (by decide) (by decide)).1 "y" 4 9 1 0 rfl rfl
  norm_num at h
  exact h

/-- Evaluation of the spec's RRF worked example on the code's `rrf_fusion`:
`ranking_a = [(x,_),(y,_)]`, `ranking_b = [(y,_),(z,_)]`, `k = 60`. -/
theorem rrf_fusion_c6_eval :
    rrf_fusion [("x", 0), ("y", 0)] [("y", 0), ("z", 0)] 60 =
      [("y", 123 / 3782), ("x", 1 / 61), ("z", 1 / 62)] := by
  rw [rrf_fusion, show rrf_passFrom 60 1 [("y", 0), ("z", 0)]
      (rrf_passFrom 60 1 [("x", 0), ("y", 0)] []) =
      [("x", 1 / 61), ("y", 123 / 3782), ("z", 1 / 62)] from by
    simp [rrf_passFrom, List.enumFrom, dictUpd]
    norm_num]
  simp [List.mergeSort, List.merge, decide_eq_true_eq]
  norm_num

/-- C6 counterexample: on the spec's worked example the code does NOT give
`y = 2/61` and `z = 1/61`; `y` is at rank 2 of list a and rank 1 of list b,
so `y = 1/62 + 1/61` and `z = 1/62`. -/
theorem rrf_worked_example_cex :
    ¬ (("y", (2 : ℚ) / 61) ∈ rrf_fusion [("x", 0), ("y", 0)] [("y", 0), ("z", 0)] 60 ∧
       ("z", (1 : ℚ) / 61) ∈ rrf_fusion [("x", 0), ("y", 0)] [("y", 0), ("z", 0)] 60) := by
  rintro ⟨h1, -⟩
  rw [rrf_fusion_c6_eval] at h1
  norm_num at h1

theorem rat_le_trans (a b c : ℚ)
    (hab : decide (b ≤ a) = true) (hbc : decide (c ≤ b) = true) :
    decide (c ≤ a) = true := by
  simp only [decide_eq_true_eq] at *
  exact le_trans hbc hab

theorem rat_le_total (a b : ℚ) : (decide (b ≤ a) || decide (a ≤ b)) = true := by
  simpa using le_total b a

/-- On a nonempty score list, summing the top 1 of the descending-sorted
scores is exactly the maximum. -/
theorem aggregateScores_top1_eq_max (scores : List ℚ) (m' : ℕ)
    (hne : scores ≠ []) :
    aggregateScores "top_m_sum" 1 scores = aggregateScores "max_p" m' scores := by
  have hss : List.Perm (scores.mergeSort (fun a b => decide (b ≤ a))) scores :=
    List.mergeSort_perm scores _
  have hsorted := List.sorted_mergeSort rat_le_trans rat_le_total scores
  have hne' : scores.mergeSort (fun a b => decide (b ≤ a)) ≠ [] := by
    intro h
    rw [h] at hss
    exact hne hss.symm.eq_nil
  obtain ⟨x, t, hms⟩ := List.exists_cons_of_ne_nil hne'
  rw [hms] at hss hsorted
  have hmax : scores.max? = some x := by
    have anti : Std.Antisymm ((· ≤ ·) : ℚ → ℚ → Prop) :=
      ⟨fun h1 h2 => le_antisymm h1 h2⟩
    rw [@List.max?_eq_some_iff ℚ x _ _ anti le_refl max_choice
      (fun a b c => max_le_iff) scores]
    constructor
    · exact hss.mem_iff.mp (List.mem_cons_self x t)
    · intro b hb
      rcases List.mem_cons.mp (hss.mem_iff.mpr hb) with hb1 | hb1
      · exact hb1.le
      · exact of_decide_eq_true (List.rel_of_pairwise_cons hsorted hb1)
  simp only [aggregateScores, hms]
  norm_num [hmax]

theorem groupChunks_values_nonempty (chunk_hits : List (String × ℚ)) :
    ∀ p ∈ groupChunks chunk_hits, p.2 ≠ [] := by
  have step : ∀ (m : List (String × List ℚ)) (k : String) (s : ℚ),
      (∀ p ∈ m, p.2 ≠ []) → ∀ p ∈ dictUpd m k (fun l => l ++ [s]) [], p.2 ≠ [] := by
    intro m k s hm
    induction m with
    | nil =>
      intro p hp
      simp only [dictUpd, List.mem_singleton] at hp
      simp [hp]
    | cons q rest ih =>
      intro p hp
      by_cases hqk : q.1 = k
      · simp only [dictUpd, hqk, if_true, List.mem_cons] at hp
        rcases hp with hp | hp
        · simp [hp]
        · exact hm p (List.mem_cons_of_mem q hp)
      · simp only [dictUpd, hqk, if_false, List.mem_cons] at hp
        rcases hp with hp | hp
        · exact hp ▸ hm q (List.mem_cons_self q rest)
        · exact ih (fun r hr => hm r (List.mem_cons_of_mem q hr)) p hp
  suffices h : ∀ (hits : List (String × ℚ)) (m0 : List (String × List ℚ)),
      (∀ p ∈ m0, p.2 ≠ []) →
      ∀ p ∈ hits.foldl (fun m p => dictUpd m p.1 (fun l => l ++ [p.2]) []) m0,
        p.2 ≠ [] by
    exact h chunk_hits [] (by simp)
  intro hits
  induction hits with
  | nil => intro m0 hm0; simpa using hm0
  | cons q rest ih =>
    intro m0 hm0
    exact ih _ (step m0 q.1 q.2 hm0)

/-- C5: `aggregate_chunk_scores` with `top_m_sum, m = 1` equals
`aggregate_chunk_scores` with `max_p` (any `m`), on every input. -/
theorem top_m_sum_one_eq_max_p (chunk_hits : List (String × ℚ)) (m' : ℕ) :
    aggregate_chunk_scores chunk_hits "top_m_sum" 1 =
      aggregate_chunk_scores chunk_hits "max_p" m' := by
  unfold aggregate_chunk_scores
  suffices h : ∀ gs : List (String × List ℚ), (∀ p ∈ gs, p.2 ≠ []) →
      aggLoop "top_m_sum" 1 gs = aggLoop "max_p" m' gs by
    rw [h _ (groupChunks_values_nonempty chunk_hits)]
  intro gs
  induction gs with
  | nil => intro _; rfl
  | cons g gs ih =>
    intro hne
    simp only [aggLoop]
    rw [aggregateScores_top1_eq_max g.2 m' (hne g (List.mem_cons_self g gs)),
      ih (fun p hp => hne p (List.mem_cons_of_mem g hp))]

theorem groupFold_mem_keys (hits : List (String × ℚ))
    (m0 : List (String × List ℚ)) (d : String) :
    (d ∈ (hits.foldl (fun m p => dictUpd m p.1 (fun l => l ++ [p.2]) []) m0).map
        Prod.fst) ↔
      d ∈ m0.map Prod.fst ∨ d ∈ hits.map Prod.fst := by
  induction hits generalizing m0 with
  | nil => simp
  | cons p rest ih =>
    simp only [List.foldl_cons, ih, dictUpd_mem_keys, List.map_cons,
      List.mem_cons]
    tauto

theorem groupFold_keys_nodup (hits : List (String × ℚ))
    (m0 : List (String × List ℚ)) (h : (m0.map Prod.fst).Nodup) :
    ((hits.foldl (fun m p => dictUpd m p.1 (fun l => l ++ [p.2]) []) m0).map
      Prod.fst).Nodup := by
  induction hits generalizing m0 with
  | nil => simpa using h
  | cons p rest ih =>
    simp only [List.foldl_cons]
    exact ih _ (dictUpd_keys_nodup m0 p.1 _ [] h)

theorem groupFold_sublist (hits : List (String × ℚ))
    (m0 : List (String × List ℚ)) (d1 d2 : String)
    (h : [d1, d2] <+ m0.map Prod.fst) :
    [d1, d2] <+ (hits.foldl
      (fun m p => dictUpd m p.1 (fun l => l ++ [p.2]) []) m0).map Prod.fst := by
  induction hits generalizing m0 with
  | nil => simpa using h
  | cons p rest ih =>
    simp only [List.foldl_cons]
    refine ih _ ?_
    rw [dictUpd_keys]
    by_cases hp : p.1 ∈ m0.map Prod.fst
    · simpa [hp] using h
    · simp only [hp, if_false]
      exact h.trans (List.sublist_append_left _ _)

theorem groupFold_before_of_mem (hits : List (String × ℚ))
    (m0 : List (String × List ℚ)) (d1 d2 : String)
    (h1 : d1 ∈ m0.map Prod.fst) (h2 : d2 ∉ m0.map Prod.fst)
    (h3 : d2 ∈ hits.map Prod.fst) :
    [d1, d2] <+ (hits.foldl
      (fun m p => dictUpd m p.1 (fun l => l ++ [p.2]) []) m0).map Prod.fst := by
  induction hits generalizing m0 with
  | nil => simp at h3
  | cons p rest ih =>
    simp only [List.foldl_cons]
    by_cases hp : p.1 = d2
    · refine groupFold_sublist rest _ d1 d2 ?_
      rw [dictUpd_keys, hp, if_neg h2]
      have hs1 : [d1] <+ m0.map Prod.fst := List.singleton_sublist.mpr h1
      exact List.Sublist.append hs1 (List.Sublist.refl [d2])
    · have h3' : d2 ∈ rest.map Prod.fst := by
        rw [List.map_cons] at h3
        rcases List.mem_cons.mp h3 with hc | hc
        · exact absurd hc.symm hp
        · exact hc
      refine ih _ ?_ ?_ h3'
      · exact (dictUpd_mem_keys m0 p.1 d1 _ []).mpr (Or.inl h1)
      · intro hmem
        rcases (dictUpd_mem_keys m0 p.1 d2 _ []).mp hmem with hc | hc
        · exact h2 hc
        · exact hp hc.symm

theorem groupFold_before_of_indexOf (hits : List (String × ℚ))
    (m0 : List (String × List ℚ)) (d1 d2 : String)
    (h1 : d1 ∉ m0.map Prod.fst) (h2 : d2 ∉ m0.map Prod.fst)
    (h3 : d1 ∈ hits.map Prod.fst) (h4 : d2 ∈ hits.map Prod.fst)
    (hlt : (hits.map Prod.fst).indexOf d1 < (hits.map Prod.fst).indexOf d2) :
    [d1, d2] <+ (hits.foldl
      (fun m p => dictUpd m p.1 (fun l => l ++ [p.2]) []) m0).map Prod.fst := by
  induction hits generalizing m0 with
  | nil => simp at h3
  | cons p rest ih =>
    have hd12 : d1 ≠ d2 := by
      intro h
      rw [h] at hlt
      exact lt_irrefl _ hlt
    have hp2 : p.1 ≠ d2 := by
      intro h
      rw [List.map_cons, h, List.indexOf_cons_self] at hlt
      exact Nat.not_lt_zero _ hlt
    have h4' : d2 ∈ rest.map Prod.fst := by
      rw [List.map_cons] at h4
      rcases List.mem_cons.mp h4 with hc | hc
      · exact absurd hc.symm hp2
      · exact hc
    simp only [List.foldl_cons]
    by_cases hp1 : p.1 = d1
    · refine groupFold_before_of_mem rest _ d1 d2 ?_ ?_ h4'
      · exact (dictUpd_mem_keys m0 p.1 d1 _ []).mpr (Or.inr hp1.symm)
      · intro hmem
        rcases (dictUpd_mem_keys m0 p.1 d2 _ []).mp hmem with hc | hc
        · exact h2 hc
        · exact hp2 hc.symm
    · have h3' : d1 ∈ rest.map Prod.fst := by
        rw [List.map_cons] at h3
        rcases List.mem_cons.mp h3 with hc | hc
        · exact absurd hc.symm hp1
        · exact hc
      have hlt' : (rest.map Prod.fst).indexOf d1 < (rest.map Prod.fst).indexOf d2 := by
        rw [List.map_cons, List.indexOf_cons_ne _ hp1,
          List.indexOf_cons_ne _ hp2] at hlt
        exact Nat.lt_of_succ_lt_succ hlt
      refine ih _ ?_ ?_ h3' h4' hlt'
      · intro hmem
        rcases (dictUpd_mem_keys m0 p.1 d1 _ []).mp hmem with hc | hc
        · exact h1 hc
        · exact hp1 hc.symm
      · intro hmem
        rcases (dictUpd_mem_keys m0 p.1 d2 _ []).mp hmem with hc | hc
        · exact h2 hc
        · exact hp2 hc.symm

theorem aggLoop_some_keys (method : String) (m : ℕ)
    (gs : List (String × List ℚ)) (out0 : List (String × ℚ))
    (h : aggLoop method m gs = some out0) :
    out0.map Prod.fst = gs.map Prod.fst := by
  induction gs generalizing out0 with
  | nil =>
    simp only [aggLoop, Option.some_inj] at h
    simp [← h]
  | cons g rest ih =>
    simp only [aggLoop] at h
    cases hagg : aggregateScores method m g.2 with
    | none => rw [hagg] at h; exact absurd h (by simp)
    | some v =>
      rw [hagg] at h
      cases hrest : aggLoop method m rest with
      | none => rw [hrest] at h; exact absurd h (by simp)
      | some out1 =>
        rw [hrest] at h
        have h' : (g.1, v) :: out1 = out0 := by simpa using h
        rw [← h']
        simp [ih out1 hrest]

/-- In an association list with `Nodup` keys, membership of two pairs plus
key order gives the pair order. -/
theorem pair_sublist_of_mem (l : List (String × ℚ)) (d1 d2 : String)
    (s1 s2 : ℚ) (hnd : (l.map Prod.fst).Nodup)
    (h1 : (d1, s1) ∈ l) (h2 : (d2, s2) ∈ l)
    (hk : [d1, d2] <+ l.map Prod.fst) :
    [(d1, s1), (d2, s2)] <+ l := by
  induction l with
  | nil => simp at h1
  | cons p rest ih =>
    simp only [List.map_cons, List.nodup_cons] at hnd
    rw [List.map_cons] at hk
    rcases List.sublist_cons_iff.mp hk with hk' | ⟨r, hr, hk'⟩
    · have hd1r : d1 ∈ rest.map Prod.fst := hk'.subset (by simp)
      have hd2r : d2 ∈ rest.map Prod.fst := hk'.subset (by simp)
      have h1' : (d1, s1) ∈ rest := by
        rcases List.mem_cons.mp h1 with hc | hc
        · have he : d1 = p.1 := congrArg Prod.fst hc
          exact absurd (he ▸ hd1r) hnd.1
        · exact hc
      have h2' : (d2, s2) ∈ rest := by
        rcases List.mem_cons.mp h2 with hc | hc
        · have he : d2 = p.1 := congrArg Prod.fst hc
          exact absurd (he ▸ hd2r) hnd.1
        · exact hc
      exact (ih hnd.2 h1' h2' hk').cons p
    · -- the sublist keeps the head, so `p.1 = d1`
      have hd1 : d1 = p.1 := List.head_eq_of_cons_eq hr
      have hr2 : r = [d2] := (List.tail_eq_of_cons_eq hr).symm
      rw [hr2] at hk'
      have hd2r : d2 ∈ rest.map Prod.fst := hk'.subset (by simp)
      have hd12 : d1 ≠ d2 := by
        intro h
        rw [← h, hd1] at hd2r
        exact hnd.1 hd2r
      have hp1 : (d1, s1) = p := by
        rcases List.mem_cons.mp h1 with hc | hc
        · exact hc
        · have hmem : d1 ∈ rest.map Prod.fst :=
            List.mem_map.mpr ⟨(d1, s1), hc, rfl⟩
          rw [hd1] at hmem
          exact absurd hmem hnd.1
      have h2' : (d2, s2) ∈ rest := by
        rcases List.mem_cons.mp h2 with hc | hc
        · have he : d1 = d2 := congrArg Prod.fst (hp1.trans hc.symm)
          exact absurd he hd12
        · exact hc
      rw [← hp1]
      exact List.Sublist.cons₂ (d1, s1) (List.singleton_sublist.mpr h2')

/-- C10: in `aggregate_chunk_scores` output, documents with equal aggregated
scores appear in order of the first occurrence of their doc id in
`chunk_hits`: the grouping dict is keyed by first occurrence and the final
descending sort is stable. -/
theorem aggregate_chunk_scores_tie_order (chunk_hits : List (String × ℚ))
    (method : String) (m : ℕ) (out : List (String × ℚ))
    (d1 d2 : String) (s1 s2 : ℚ)
    (hout : aggregate_chunk_scores chunk_hits method m = some out)
    (h1 : (d1, s1) ∈ out) (h2 : (d2, s2) ∈ out) (hs : s1 = s2)
    (hfirst : (chunk_hits.map Prod.fst).indexOf d1 <
      (chunk_hits.map Prod.fst).indexOf d2) :
    List.Sublist [(d1, s1), (d2, s2)] out := by
  unfold aggregate_chunk_scores at hout
  obtain ⟨out0, hagg, hsort⟩ := Option.map_eq_some'.mp hout
  have hkeys : out0.map Prod.fst = (groupChunks chunk_hits).map Prod.fst :=
    aggLoop_some_keys method m _ out0 hagg
  have hnd : (out0.map Prod.fst).Nodup := by
    rw [hkeys]
    exact groupFold_keys_nodup chunk_hits [] (by simp)
  have h1' : (d1, s1) ∈ out0 := by
    rw [← hsort] at h1
    exact List.mem_mergeSort.mp h1
  have h2' : (d2, s2) ∈ out0 := by
    rw [← hsort] at h2
    exact List.mem_mergeSort.mp h2
  have hd1hits : d1 ∈ chunk_hits.map Prod.fst := by
    have hg : d1 ∈ (groupChunks chunk_hits).map Prod.fst := by
      rw [← hkeys]
      exact List.mem_map.mpr ⟨(d1, s1), h1', rfl⟩
    have := (groupFold_mem_keys chunk_hits [] d1).mp hg
    simpa using this
  have hd2hits : d2 ∈ chunk_hits.map Prod.fst := by
    have hg : d2 ∈ (groupChunks chunk_hits).map Prod.fst := by
      rw [← hkeys]
      exact List.mem_map.mpr ⟨(d2, s2), h2', rfl⟩
    have := (groupFold_mem_keys chunk_hits [] d2).mp hg
    simpa using this
  have hkey_sub : List.Sublist [d1, d2] ((groupChunks chunk_hits).map Prod.fst) :=
    groupFold_before_of_indexOf chunk_hits [] d1 d2 (by simp) (by simp)
      hd1hits hd2hits hfirst
  have hpair : List.Sublist [(d1, s1), (d2, s2)] out0 :=
    pair_sublist_of_mem out0 d1 d2 s1 s2 hnd h1' h2' (by rw [hkeys]; exact hkey_sub)
  rw [← hsort]
  exact List.pair_sublist_mergeSort rrf_le_trans rrf_le_total
    (by simp [hs]) hpair

/-- Concrete evaluation for the C10 witness: two tied docs aggregate in
first-occurrence order. -/
theorem aggregate_tie_eval :
    aggregate_chunk_scores [("a", 1), ("b", 1)] "max_p" 3 =
      some [("a", 1), ("b", 1)] := by
  simp [aggregate_chunk_scores, groupChunks, aggLoop, aggregateScores, dictUpd,
    List.mergeSort, List.merge, decide_eq_true_eq, List.max?]

/-- Closed witness for C10: with tied scores, doc `a` (first occurrence
index 0) precedes doc `b` (index 1) in the aggregated output. -/
theorem aggregate_chunk_scores_tie_order_witness :
    List.Sublist [(("a" : String), (1 : ℚ)), ("b", 1)]
      [(("a" : String), (1 : ℚ)), ("b", 1)] :=
  aggregate_chunk_scores_tie_order [("a", 1), ("b", 1)] "max_p" 3
    [("a", 1), ("b", 1)] "a" "b" 1 1 aggregate_tie_eval (by simp) (by simp)
    rfl (by decide)

theorem load_qrels_aux_mem (rows : List (String × String × ℚ))
    (q0 : List (String × List String)) (qid d : String) :
    d ∈ dictGet (rows.foldl
        (fun q r => if 0 < r.2.2 then
            dictUpd q r.1 (fun l => if r.2.1 ∈ l then l else l ++ [r.2.1]) []
          else q) q0) qid [] ↔
      d ∈ dictGet q0 qid [] ∨ ∃ s, (qid, d, s) ∈ rows ∧ 0 < s := by
  induction rows generalizing q0 with
  | nil => simp
  | cons r rest ih =>
    simp only [List.foldl_cons]
    by_cases hr : 0 < r.2.2
    · rw [if_pos hr, ih]
      have hstep : d ∈ dictGet (dictUpd q0 r.1
            (fun l => if r.2.1 ∈ l then l else l ++ [r.2.1]) []) qid [] ↔
          d ∈ dictGet q0 qid [] ∨ (qid = r.1 ∧ d = r.2.1) := by
        rw [dictGet_dictUpd]
        by_cases hq : qid = r.1
        · simp only [hq, if_true]
          by_cases hmem : r.2.1 ∈ dictGet q0 r.1 []
          · simp only [hmem, if_true]
            constructor
            · exact fun h => Or.inl h
            · rintro (h | ⟨-, h⟩)
              · exact h
              · exact h ▸ hmem
          · simp only [hmem, if_false, List.mem_append, List.mem_singleton]
            tauto
        · simp [hq]
      rw [hstep]
      constructor
      · rintro (((h | ⟨hq, hd⟩) | ⟨s, hs, hpos⟩))
        · exact Or.inl h
        · exact Or.inr ⟨r.2.2, by
            rw [hq, hd]
            exact ⟨List.mem_cons_self r rest, hr⟩⟩
        · exact Or.inr ⟨s, List.mem_cons_of_mem r hs, hpos⟩
      · rintro (h | ⟨s, hs, hpos⟩)
        · exact Or.inl (Or.inl h)
        · rcases List.mem_cons.mp hs with hc | hc
          · refine Or.inl (Or.inr ?_)
            constructor
            · exact congrArg Prod.fst hc
            · exact congrArg (fun x => x.2.1) hc
          · exact Or.inr ⟨s, hc, hpos⟩
    · rw [if_neg hr, ih]
      constructor
      · rintro (h | ⟨s, hs, hpos⟩)
        · exact Or.inl h
        · exact Or.inr ⟨s, List.mem_cons_of_mem r hs, hpos⟩
      · rintro (h | ⟨s, hs, hpos⟩)
        · exact Or.inl h
        · rcases List.mem_cons.mp hs with hc | hc
          · exfalso
            have : s = r.2.2 := congrArg (fun x => x.2.2) hc
            rw [this] at hpos
            exact hr hpos
          · exact Or.inr ⟨s, hc, hpos⟩

/-- C9: the emitted subset qrels carry the literal relevance score `1` for
every retained pair, and `load_qrels` keeps only the set of positively
judged doc ids per query (graded levels are discarded). -/
theorem subset_qrels_score_one (rows : List (String × String × ℚ))
    (pool : Finset String) :
    (∀ e ∈ write_qrels (load_qrels rows) pool, e.2.2 = 1) ∧
    (∀ qid d, d ∈ qrelsGet (load_qrels rows) qid ↔
      ∃ s, (qid, d, s) ∈ rows ∧ 0 < s) := by
  constructor
  · intro e he
    rcases List.mem_flatMap.mp he with ⟨qid, -, hmem⟩
    rcases List.mem_filterMap.mp hmem with ⟨d, -, hd⟩
    by_cases hp : d ∈ pool
    · rw [if_pos hp] at hd
      cases hd
      rfl
    · rw [if_neg hp] at hd
      cases hd
  · intro qid d
    unfold qrelsGet load_qrels
    rw [load_qrels_aux_mem]
    simp [dictGet]

theorem build_pool_mono (qrels : List (String × List String))
    (bm25top : String → List String) (sampled : List String)
    (pool0 : Finset String) :
    pool0 ⊆ sampled.foldl
      (fun pool qid =>
        (pool ∪ (qrelsGet qrels qid).toFinset) ∪ (bm25top qid).toFinset)
      pool0 := by
  induction sampled generalizing pool0 with
  | nil => simp
  | cons x rest ih =>
    simp only [List.foldl_cons]
    refine Finset.Subset.trans ?_ (ih _)
    intro a ha
    simp [ha]

/-- C1: every doc id with a positive qrel for a sampled query is in the
candidate pool, regardless of the BM25 results. -/
theorem candidate_pool_no_false_negatives (rows : List (String × String × ℚ))
    (bm25top : String → List String) (sampled : List String) (q d : String)
    (hq : q ∈ sampled) (hd : ∃ s, (q, d, s) ∈ rows ∧ 0 < s) :
    d ∈ build_candidate_pool (load_qrels rows) bm25top sampled := by
  have hdq : d ∈ qrelsGet (load_qrels rows) q := by
    unfold qrelsGet load_qrels
    rw [load_qrels_aux_mem]
    simpa using Or.inr hd
  unfold build_candidate_pool
  suffices h : ∀ (sampled : List String) (pool0 : Finset String), q ∈ sampled →
      d ∈ sampled.foldl
        (fun pool qid =>
          (pool ∪ (qrelsGet (load_qrels rows) qid).toFinset) ∪
            (bm25top qid).toFinset)
        pool0 by
    exact h sampled ∅ hq
  intro sampled'
  induction sampled' with
  | nil => intro pool0 h; simp at h
  | cons x rest ih =>
    intro pool0 hmem
    rcases List.mem_cons.mp hmem with hc | hc
    · simp only [List.foldl_cons]
      refine build_pool_mono _ _ _ _ ?_
      rw [← hc]
      simp [hdq]
    · simp only [List.foldl_cons]
      exact ih _ hc

/-- Closed witness for C1: query q1 with relevant doc d1 (score 2) is
sampled; d1 is in the pool even though BM25 returns nothing. -/
theorem candidate_pool_no_false_negatives_witness :
    "d1" ∈ build_candidate_pool (load_qrels [("q1", "d1", 2)])
      (fun _ => []) ["q1"] :=
  candidate_pool_no_false_negatives [("q1", "d1", 2)] (fun _ => []) ["q1"]
    "q1" "d1" (by simp) ⟨2, by simp, by norm_num⟩

theorem load_corpus_aux_keys_mono (max_docs : Option ℕ)
    (required : Finset String) (file corpus : List (String × String × String))
    (remaining : Finset String) (regular : ℕ) (d : String)
    (hd : d ∈ corpus.map Prod.fst) :
    d ∈ (load_corpus_aux max_docs required file corpus remaining regular).1.map
      Prod.fst := by
  induction file generalizing corpus remaining regular with
  | nil => simpa [load_corpus_aux] using hd
  | cons doc rest ih =>
    unfold load_corpus_aux
    by_cases h1 : doc.1 ∈ required
    · rw [if_pos h1]
      exact ih _ _ _ ((dictUpd_mem_keys corpus doc.1 d _ doc.2).mpr (Or.inl hd))
    · rw [if_neg h1]
      by_cases h2 : maxDocsTruthy max_docs ∧ max_docs.getD 0 ≤ regular
      · rw [if_pos h2]
        by_cases h3 : remaining = ∅
        · rw [if_pos h3]
          exact hd
        · rw [if_neg h3]
          exact ih _ _ _ hd
      · rw [if_neg h2]
        exact ih _ _ _ ((dictUpd_mem_keys corpus doc.1 d _ doc.2).mpr (Or.inl hd))

theorem load_corpus_aux_required (max_docs : Option ℕ)
    (required : Finset String) (file corpus : List (String × String × String))
    (remaining : Finset String) (regular : ℕ)
    (hinv : ∀ e ∈ required, e ∉ remaining → e ∈ corpus.map Prod.fst) :
    ∀ doc ∈ file, doc.1 ∈ required →
      doc.1 ∈ (load_corpus_aux max_docs required file corpus remaining
        regular).1.map Prod.fst := by
  induction file generalizing corpus remaining regular with
  | nil => intro doc hdoc; simp at hdoc
  | cons doc rest ih =>
    intro doc' hdoc' hreq'
    unfold load_corpus_aux
    by_cases h1 : doc.1 ∈ required
    · rw [if_pos h1]
      have hinv' : ∀ e ∈ required, e ∉ remaining.erase doc.1 →
          e ∈ (dictUpd corpus doc.1 (fun _ => doc.2) doc.2).map Prod.fst := by
        intro e he hne
        rw [Finset.mem_erase] at hne
        push_neg at hne
        by_cases hed : e = doc.1
        · exact (dictUpd_mem_keys corpus doc.1 e _ doc.2).mpr (Or.inr hed)
        · exact (dictUpd_mem_keys corpus doc.1 e _ doc.2).mpr
            (Or.inl (hinv e he (fun hr => absurd (hne hed hr) (by simp))))
      rcases List.mem_cons.mp hdoc' with hc | hc
      · refine load_corpus_aux_keys_mono _ _ _ _ _ _ _ ?_
        exact (dictUpd_mem_keys corpus doc.1 doc'.1 _ doc.2).mpr
          (Or.inr (congrArg Prod.fst hc))
      · exact ih _ _ _ hinv' doc' hc hreq'
    · rw [if_neg h1]
      by_cases h2 : maxDocsTruthy max_docs ∧ max_docs.getD 0 ≤ regular
      · rw [if_pos h2]
        by_cases h3 : remaining = ∅
        · rw [if_pos h3]
          refine hinv doc'.1 hreq' ?_
          rw [h3]
          simp
        · rw [if_neg h3]
          rcases List.mem_cons.mp hdoc' with hc | hc
          · exfalso
            rw [hc] at hreq'
            exact h1 hreq'
          · exact ih _ _ _ hinv doc' hc hreq'
      · rw [if_neg h2]
        have hinv' : ∀ e ∈ required, e ∉ remaining →
            e ∈ (dictUpd corpus doc.1 (fun _ => doc.2) doc.2).map Prod.fst :=
          fun e he hne =>
            (dictUpd_mem_keys corpus doc.1 e _ doc.2).mpr (Or.inl (hinv e he hne))
        rcases List.mem_cons.mp hdoc' with hc | hc
        · exfalso
          rw [hc] at hreq'
          exact h1 hreq'
        · exact ih _ _ _ hinv' doc' hc hreq'

theorem load_corpus_aux_regular_le (m : ℕ) (required : Finset String)
    (file corpus : List (String × String × String)) (remaining : Finset String)
    (regular : ℕ) (hm : 0 < m) (hreg : regular ≤ m) :
    (load_corpus_aux (some m) required file corpus remaining regular).2 ≤ m := by
  induction file generalizing corpus remaining regular with
  | nil => simpa [load_corpus_aux] using hreg
  | cons doc rest ih =>
    unfold load_corpus_aux
    by_cases h1 : doc.1 ∈ required
    · rw [if_pos h1]
      exact ih _ _ _ hreg
    · rw [if_neg h1]
      by_cases h2 : maxDocsTruthy (some m) ∧ (some m).getD 0 ≤ regular
      · rw [if_pos h2]
        by_cases h3 : remaining = ∅
        · rw [if_pos h3]
          exact hreg
        · rw [if_neg h3]
          exact ih _ _ _ hreg
      · rw [if_neg h2]
        refine ih _ _ _ ?_
        have htr : maxDocsTruthy (some m) = true := by
          simp [maxDocsTruthy, Nat.pos_iff_ne_zero.mp hm]
        have hlt : ¬ ((some m).getD 0 ≤ regular) := by
          intro hle
          exact h2 ⟨htr, hle⟩
        simp only [Option.getD_some] at hlt
        omega

/-- C3 counterexample: with `max_docs = 0` the Python truthiness test
`if max_docs and ...` disables the cap, so a single non-required document
is loaded even though the budget is 0. -/
theorem load_corpus_budget_cex :
    ¬ ((load_corpus [("d", "t", "x")] (some 0) ∅).2 ≤ 0) := by
  decide

/-- C3 amended: for a positive document budget `m`, every document of the
file whose id is required ends up in the corpus (the scan never stops while
required ids are missing), and the regular-document count never exceeds
`m`.  (With `max_docs = 0` or `None`, Python truthiness disables the cap.) -/
theorem load_corpus_budget (file : List (String × String × String))
    (required : Finset String) (m : ℕ) (hm : 0 < m) :
    (∀ doc ∈ file, doc.1 ∈ required →
      doc.1 ∈ (load_corpus file (some m) required).1.map Prod.fst) ∧
    (load_corpus file (some m) required).2 ≤ m := by
  constructor
  · exact load_corpus_aux_required (some m) required file [] required 0
      (fun e he hne => absurd he hne)
  · exact load_corpus_aux_regular_le m required file [] required 0 hm
      (Nat.zero_le m)

/-- Closed witness for C3 (amended): budget 1, a required doc past the cap
is still loaded and the regular count respects the budget. -/
theorem load_corpus_budget_witness :
    ("r" ∈ ((load_corpus [("a", "", ""), ("b", "", ""), ("r", "", "")]
        (some 1) {"r"}).1.map Prod.fst)) ∧
    (load_corpus [("a", "", ""), ("b", "", ""), ("r", "", "")]
        (some 1) {"r"}).2 ≤ 1 := by
  have h := load_corpus_budget [("a", "", ""), ("b", "", ""), ("r", "", "")]
    {"r"} 1 (by norm_num)
  exact ⟨h.1 ("r", "", "") (by simp) (by simp), h.2⟩

theorem allocLoop_eq (n total : ℕ) (ratios : List ℕ) (alloc : ℕ)
    (hne : ratios ≠ []) :
    allocLoop n total ratios alloc =
      (ratios.dropLast.map (fun r => n * r / total)) ++
        [n - (alloc + (ratios.dropLast.map (fun r => n * r / total)).sum)] := by
  induction ratios generalizing alloc with
  | nil => exact absurd rfl hne
  | cons r rest ih =>
    cases rest with
    | nil => simp [allocLoop]
    | cons r2 rest2 =>
      rw [show allocLoop n total (r :: r2 :: rest2) alloc =
          (n * r / total) ::
            allocLoop n total (r2 :: rest2) (alloc + n * r / total) from rfl]
      rw [ih _ (by simp)]
      simp only [List.dropLast_cons₂, List.map_cons, List.sum_cons,
        List.cons_append]
      rw [Nat.add_assoc]

theorem sum_map_div_le (T : ℕ) (hT : 0 < T) (l : List ℕ) :
    (l.map (fun a => a / T)).sum ≤ l.sum / T := by
  induction l with
  | nil => simp
  | cons a rest ih =>
    simp only [List.map_cons, List.sum_cons]
    have h1 : a / T + (rest.map (fun a => a / T)).sum ≤ a / T + rest.sum / T :=
      Nat.add_le_add_left ih _
    refine le_trans h1 ?_
    rw [Nat.le_div_iff_mul_le hT, Nat.add_mul]
    exact Nat.add_le_add (Nat.div_mul_le_self a T) (Nat.div_mul_le_self _ T)

theorem alloc_sum_le (n : ℕ) (ratios : List ℕ) (hpos : 0 < ratios.sum) :
    ((ratios.dropLast.map (fun r => n * r / ratios.sum)).sum) ≤ n := by
  have h0 : ratios.dropLast.map (fun r => n * r / ratios.sum) =
      (ratios.dropLast.map (fun r => n * r)).map (fun a => a / ratios.sum) := by
    rw [List.map_map]
    rfl
  rw [h0]
  refine le_trans (sum_map_div_le _ hpos _) ?_
  have h1 : (ratios.dropLast.map (fun r => n * r)).sum = n * ratios.dropLast.sum := by
    induction ratios.dropLast with
    | nil => simp
    | cons a rest ih => simp [ih, Nat.mul_add]
  rw [h1]
  have h2 : ratios.dropLast.sum ≤ ratios.sum := by
    clear hpos h0 h1
    induction ratios with
    | nil => simp
    | cons a rest ih =>
      cases rest with
      | nil => simp
      | cons b rest2 =>
        simp only [List.dropLast_cons₂, List.sum_cons]
        exact Nat.add_le_add_left ih a
  refine le_trans (Nat.div_le_div_right (Nat.mul_le_mul_left n h2)) ?_
  rw [Nat.mul_div_cancel _ hpos]

/-- C4: each dataset but the last is allocated `floor(n * ratio_i / total)`
queries, the last absorbs the remainder, the total is exactly `n`; and
`n = 10` with ratio `3:1` gives `[7, 3]`. -/
theorem queries_per_dataset_spec (n : ℕ) (ratios : List ℕ)
    (hne : ratios ≠ []) (hpos : 0 < ratios.sum) :
    queries_per_dataset n ratios =
      (ratios.dropLast.map (fun r => n * r / ratios.sum)) ++
        [n - (ratios.dropLast.map (fun r => n * r / ratios.sum)).sum] ∧
    (queries_per_dataset n ratios).sum = n ∧
    queries_per_dataset 10 [3, 1] = [7, 3] := by
  have hrep := allocLoop_eq n ratios.sum ratios 0 hne
  refine ⟨by rw [queries_per_dataset, hrep]; simp, ?_, by decide⟩
  rw [queries_per_dataset, hrep]
  simp only [List.sum_append, List.sum_cons, List.sum_nil, Nat.zero_add,
    Nat.add_zero]
  have hle := alloc_sum_le n ratios hpos
  omega

/-- Closed witness for C4: the spec's 10-query, 3:1 scenario gives 7 and 3,
summing to 10. -/
theorem queries_per_dataset_spec_witness :
    (queries_per_dataset 10 [3, 1]).sum = 10 ∧
    queries_per_dataset 10 [3, 1] = [7, 3] := by
  have h := queries_per_dataset_spec 10 [3, 1] (by decide) (by decide)
  exact ⟨h.2.1, h.2.2⟩

/-- C8 counterexample: the fallback branch does NOT deduplicate — on the
text "a a" it returns the word token "a" twice (plus the bigram "aa"). -/
theorem tokenize_fallback_not_dedup_cex :
    tokenize_simple_fallback [Char.ofNat 97, ' ', Char.ofNat 97] =
      [[Char.ofNat 97], [Char.ofNat 97], [Char.ofNat 97, Char.ofNat 97]] ∧
    ¬ (tokenize_simple_fallback [Char.ofNat 97, ' ', Char.ofNat 97]).Nodup := by
  constructor
  · decide
  · decide

/-- C8 amended: the segmenter-mode token list is deduplicated (for every
segmenter and every input), while the bigram fallback concatenates word
tokens and bigrams without deduplication (see the counterexample); both
branches are total functions. -/
theorem tokenize_seg_nodup (segmenter : List Char → List (List Char))
    (text : List Char) : (tokenize_simple_seg segmenter text).Nodup := by
  simp only [tokenize_simple_seg]
  exact List.nodup_dedup _

theorem argsort_le_trans (scores : List ℚ) (a b c : ℕ)
    (hab : decide (scores.getD a 0 < scores.getD b 0 ∨
      (scores.getD a 0 = scores.getD b 0 ∧ a ≤ b)) = true)
    (hbc : decide (scores.getD b 0 < scores.getD c 0 ∨
      (scores.getD b 0 = scores.getD c 0 ∧ b ≤ c)) = true) :
    decide (scores.getD a 0 < scores.getD c 0 ∨
      (scores.getD a 0 = scores.getD c 0 ∧ a ≤ c)) = true := by
  simp only [decide_eq_true_eq] at *
  rcases hab with h1 | ⟨h1, h1'⟩
  · rcases hbc with h2 | ⟨h2, h2'⟩
    · exact Or.inl (lt_trans h1 h2)
    · exact Or.inl (h2 ▸ h1)
  · rcases hbc with h2 | ⟨h2, h2'⟩
    · exact Or.inl (h1 ▸ h2)
    · exact Or.inr ⟨h1.trans h2, le_trans h1' h2'⟩

theorem argsort_le_total (scores : List ℚ) (a b : ℕ) :
    (decide (scores.getD a 0 < scores.getD b 0 ∨
      (scores.getD a 0 = scores.getD b 0 ∧ a ≤ b)) ||
     decide (scores.getD b 0 < scores.getD a 0 ∨
      (scores.getD b 0 = scores.getD a 0 ∧ b ≤ a))) = true := by
  rw [Bool.or_eq_true, decide_eq_true_eq, decide_eq_true_eq]
  rcases lt_trichotomy (scores.getD a 0) (scores.getD b 0) with h | h | h
  · exact Or.inl (Or.inl h)
  · rcases Nat.le_total a b with h' | h'
    · exact Or.inl (Or.inr ⟨h, h'⟩)
    · exact Or.inr (Or.inr ⟨h.symm, h'⟩)
  · exact Or.inr (Or.inl h)

/-- In a `Pairwise le` list, if `le b a` fails then `a` occurs before `b`. -/
theorem pair_sublist_of_pairwise {α : Type} (le : α → α → Bool) (l : List α)
    (hp : l.Pairwise (fun x y => le x y = true)) (a b : α) (hab : a ≠ b)
    (ha : a ∈ l) (hb : b ∈ l) (hba : le b a = false) :
    List.Sublist [a, b] l := by
  induction l with
  | nil => simp at ha
  | cons x xs ih =>
    rw [List.pairwise_cons] at hp
    by_cases hxb : x = b
    · exfalso
      have ha' : a ∈ xs := by
        rcases List.mem_cons.mp ha with hc | hc
        · exact absurd (hc.trans hxb) hab
        · exact hc
      have := hp.1 a ha'
      rw [hxb] at this
      rw [this] at hba
      cases hba
    · have hb' : b ∈ xs := by
        rcases List.mem_cons.mp hb with hc | hc
        · exact absurd hc.symm hxb
        · exact hc
      by_cases hxa : x = a
      · rw [← hxa]
        have : List.Sublist [b] xs := List.singleton_sublist.mpr hb'
        rw [hxa]
        exact List.Sublist.cons₂ a this
      · have ha' : a ∈ xs := by
          rcases List.mem_cons.mp ha with hc | hc
          · exact absurd hc.symm hxa
          · exact hc
        exact (ih hp.2 ha' hb').cons x

/-- C7 amended: `bm25_retrieve` is a deterministic function of the score
array, and two tied documents both selected in the top-M appear in REVERSE
load order (the ascending argsort is reversed), not load order. -/
theorem bm25_retrieve_tie_reverse (scores : List ℚ) (doc_ids : List String)
    (top_m i j : ℕ) (hij : i < j)
    (hsc : scores.getD i 0 = scores.getD j 0)
    (hi : i ∈ pyTailSlice (argsortAsc scores) top_m)
    (hj : j ∈ pyTailSlice (argsortAsc scores) top_m) :
    List.Sublist [(doc_ids.getD j "", scores.getD j 0),
      (doc_ids.getD i "", scores.getD i 0)] (bm25_retrieve scores doc_ids top_m) := by
  have hsorted := List.sorted_mergeSort (argsort_le_trans scores)
    (argsort_le_total scores) (List.range scores.length)
  have hsubslice : List.Sublist (pyTailSlice (argsortAsc scores) top_m)
      (argsortAsc scores) := by
    unfold pyTailSlice
    by_cases hm : top_m = 0
    · rw [if_pos hm]
    · rw [if_neg hm]
      exact List.drop_sublist _ _
  have hslice_pairwise := hsorted.sublist hsubslice
  have hpair : List.Sublist [i, j] (pyTailSlice (argsortAsc scores) top_m) := by
    refine pair_sublist_of_pairwise _ _ hslice_pairwise i j (Nat.ne_of_lt hij)
      hi hj ?_
    simp only [decide_eq_false_iff_not]
    rintro (h | ⟨-, h⟩)
    · rw [hsc] at h
      exact lt_irrefl _ h
    · omega
  have hrev : List.Sublist [j, i] (pyTailSlice (argsortAsc scores) top_m).reverse := by
    have := hpair.reverse
    simpa using this
  have hmap := hrev.map (fun idx => (doc_ids.getD idx "", scores.getD idx 0))
  simpa [bm25_retrieve] using hmap

/-- Evaluation of the argsort slice on the tied two-document example. -/
theorem bm25_tie_slice_eval : pyTailSlice (argsortAsc [1, 1]) 2 = [0, 1] := by
  have h : argsortAsc [1, 1] = [0, 1] := by
    simp only [argsortAsc, List.length_cons, List.length_nil]
    rw [show List.range (0 + 1 + 1) = [0, 1] by decide]
    simp [List.mergeSort, List.merge]
  rw [h]
  simp [pyTailSlice]

/-- C7 counterexample: two docs A (index 0) and B (index 1) with equal
scores, top-2: the code returns B before A — reverse corpus order, not
corpus order. -/
theorem bm25_tie_order_cex :
    bm25_retrieve [1, 1] ["A", "B"] 2 = [("B", 1), ("A", 1)] ∧
    bm25_retrieve [1, 1] ["A", "B"] 2 ≠ [("A", 1), ("B", 1)] := by
  have h : bm25_retrieve [1, 1] ["A", "B"] 2 = [("B", 1), ("A", 1)] := by
    rw [bm25_retrieve, bm25_tie_slice_eval]
    rfl
  refine ⟨h, ?_⟩
  rw [h]
  simp

/-- Closed witness for C7 (amended): at the tied two-document example, B
precedes A in the output. -/
theorem bm25_retrieve_tie_reverse_witness :
    List.Sublist [(("B" : String), (1 : ℚ)), ("A", 1)]
      (bm25_retrieve [1, 1] ["A", "B"] 2) := by
  have h := bm25_retrieve_tie_reverse [1, 1] ["A", "B"] 2 0 1 (by norm_num)
    rfl (by rw [bm25_tie_slice_eval]; simp) (by rw [bm25_tie_slice_eval]; simp)
  simpa using h

/-- C6 amended: fusing `ranking_a = [(x,_),(y,_)]` with
`ranking_b = [(y,_),(z,_)]` at `k = 60` yields `x = 1/61`,
`y = 1/62 + 1/61`, `z = 1/62`, ordered `y`, then `x`, then `z`
(`x` and `z` are not tied). -/
theorem rrf_worked_example :
    rrf_fusion [("x", 0), ("y", 0)] [("y", 0), ("z", 0)] 60 =
      [("y", 1 / 62 + 1 / 61), ("x", 1 / 61), ("z", 1 / 62)] ∧
    (1 : ℚ) / 61 ≠ 1 / 62 := by
  constructor
  · rw [rrf_fusion_c6_eval]
    norm_num
  · norm_num

end Sonar
